import Mathlib

/-!
# blog.vidsey.io examples: the expiring file cache and the profile handler

A shallow embedding of

* `_examples/awsandgo/aws_v2.go`: `cacheInit`, `cacheClean`, `cacheEnsure`,
  `cachePath`, `cacheDownload`, `cacheDeleteTimer` and the timer callback;
* `_examples/facebookapi/facebook_api.go`: the token selection of
  `profileHandler`.

The cache is a process-wide record (`cache.timers`, `cache.root`) next to three
pieces of outside state: the clock with the runtime's timers, the disk, and
the remote object store.  `World` holds all of them.  What the outside does
during one call (the result of `GetObject`, a failing `OpenFile`, a failing
`io.Copy`) is an input of the call, `Env`.

How the outside is modelled:

* a `*time.Timer` is an address in a heap of timers, so that the map can lose
  a timer that is still armed; a timer fires as soon as the clock reaches its
  deadline, and firing runs its callback in one piece;
* the disk is the set of regular files by path, with the cache root directory
  there or not; distinct clean paths name distinct files; `os.Remove` and
  `os.RemoveAll` can fail, and which paths they fail on is an input of the
  step that calls them;
* paths are built by `filepath.Join`, modelled for Unix with its `Clean`;
* a call of `cacheEnsure` runs in one piece (`cacheEnsure`), or with something
  happening between its two locked blocks (`cacheEnsureBetween`);
* a Go panic is the result `fault`; the state it leaves is the state at the
  faulting statement.
-/

namespace AwsCache

/-- A byte string; each byte is kept as a natural number. -/
abbrev Bytes := List Nat

/-- A Go `error` value, kept as its message. -/
abbrev Err := String

/-! ## `path/filepath` (Unix) -/

/-- Cut a path at every `/`. -/
def splitSlash : List Char → List (List Char)
  | [] => [[]]
  | c :: cs =>
    match splitSlash cs with
    | [] => [[c]]
    | s :: ss => if c = '/' then [] :: s :: ss else (c :: s) :: ss

/-- One pass of `filepath.Clean` over the elements of a path, with the
elements kept so far in reverse order: empty and `.` elements are dropped, a
`..` removes the element before it, is dropped at the start of a rooted path
and is kept otherwise. -/
def cleanSegs (rooted : Bool) : List (List Char) → List (List Char) → List (List Char)
  | acc, [] => acc.reverse
  | acc, s :: rest =>
    if s = [] ∨ s = ['.'] then cleanSegs rooted acc rest
    else if s = ['.', '.'] then
      match acc with
      | [] => if rooted then cleanSegs rooted [] rest else cleanSegs rooted [s] rest
      | a :: acc' =>
        if a = ['.', '.'] then cleanSegs rooted (s :: a :: acc') rest
        else cleanSegs rooted acc' rest
    else cleanSegs rooted (s :: acc) rest

/-- Put `/` between the elements. -/
def joinSlash : List (List Char) → List Char
  | [] => []
  | [s] => s
  | s :: t :: rest => s ++ '/' :: joinSlash (t :: rest)

/-- Go's `filepath.Clean` on Unix. -/
def filepathClean (p : List Char) : List Char :=
  let rooted := p.head? = some '/'
  let body := joinSlash (cleanSegs rooted [] (splitSlash p))
  let out := if rooted then '/' :: body else body
  if out = [] then ['.'] else out

/-- Go's `filepath.Join(a, b)` on Unix: the first non-empty element starts the
path, the rest is joined with `/`, and the result is cleaned. -/
def filepathJoin (a b : String) : String :=
  if a ≠ "" then String.mk (filepathClean (a.data ++ '/' :: b.data))
  else if b ≠ "" then String.mk (filepathClean b.data)
  else ""

/-! ## State -/

/-- A `*time.Timer` made by `time.AfterFunc(keep, func() { ... key ... })`. -/
structure Timer where
  /-- The key captured by the callback. -/
  key : String
  /-- The instant at which the timer fires; `none` once it has fired. -/
  deadline : Option Nat
  deriving DecidableEq

/-- The part of the disk the cache acts on. -/
structure Disk where
  /-- Whether the directory `cache.root` exists. -/
  rootDir : Bool
  /-- The regular files, by path. -/
  files : String → Option Bytes

/-- The package variable `cache` with the outside state it acts on. -/
structure World where
  /-- The clock. -/
  now : Nat
  /-- The field `cache.root`. -/
  root : String
  /-- The map `cache.timers`: the timer of a key is an address in `heap`; `none` is
  the `nil` a Go map gives for a missing key. -/
  timers : String → Option Nat
  /-- Every timer made so far, by address. -/
  heap : List Timer
  /-- The disk. -/
  disk : Disk
  /-- The keys passed to `client.GetObject`, oldest first. -/
  fetched : List String
  /-- The body written by the latest download of a key that returned `nil`. -/
  stored : String → Option Bytes

/-- What the outside does during one call of `cacheEnsure`. -/
structure Env where
  /-- The `src.Body` of the `GetObject` result; `none` is a `nil` body, which is
  what the client returns with a failed request. -/
  getBody : Option Bytes
  /-- The `err` of the `GetObject` result. -/
  getErr : Option Err
  /-- An error of `os.OpenFile` that the disk model does not explain
  (permission, ...). -/
  openErr : Option Err
  /-- When set, `io.Copy` fails with the error after that many bytes are written
  (a read error of the body, a full disk, ...). -/
  copyErr : Option (Nat × Err)

/-- What a Go call does: it returns, or it stops with a run-time fault. -/
inductive Result (α : Type) where
  | ret (a : α)
  | fault
  deriving DecidableEq

/-! ## The disk -/

/-- Whether the clean path `p` lies below the directory with clean path `r`. -/
def below (r p : List Char) : Bool :=
  if r.getLast? = some '/' then r.isPrefixOf p ∧ p ≠ r
  else (r ++ ['/']).isPrefixOf p

/-- The disk with content `c` in the file at `p`. -/
def writeFile (p : String) (c : Bytes) (d : Disk) : Disk :=
  { d with files := fun q => if q = p then some c else d.files q }

/-- Go's `os.OpenFile(p, os.O_CREATE|os.O_WRONLY, 0644)` with the cache root
`root`: fails when the outside says so, for the empty path, when `p` is the
cache root and that directory exists, and when the cache root directory is
gone and `p` lies in it; otherwise the file exists afterwards, created empty
when it was missing and left as it was (there is no `O_TRUNC`) when it was
there. Once the cache root directory is gone, its path is a path like any
other: opening it creates a regular file there. -/
def openFile (env : Env) (root p : String) (d : Disk) : Except Err Disk :=
  match env.openErr with
  | some e => .error e
  | none =>
    let r := filepathClean root.data
    if p = "" then .error "no such file or directory"
    else if p.data = r ∧ d.rootDir then .error "is a directory"
    else if !d.rootDir ∧ below r p.data then .error "no such file or directory"
    else .ok (writeFile p ((d.files p).getD []) d)

/-- Writing `b` at offset 0 of a file that holds `old`. -/
def overwrite (b old : Bytes) : Bytes := b ++ old.drop b.length

/-- Go's `io.Copy(dst, src.Body)` into the file just opened at `p`: on success the
whole body is written from offset 0; on failure only its first `n` bytes. -/
def ioCopy (env : Env) (p : String) (body : Bytes) (d : Disk) : Option Err × Disk :=
  let old := (d.files p).getD []
  match env.copyErr with
  | some (n, e) => (some e, writeFile p (overwrite (body.take n) old) d)
  | none => (none, writeFile p (overwrite body old) d)

/-- Go's `os.RemoveAll(root)`: what is at the path of the cache root and below
it is gone, but for what cannot be removed: the files at the paths `kept`, and
the root directory itself unless `rootGone`. -/
def removeAll (root : String) (kept : String → Bool) (rootGone : Bool) (d : Disk) : Disk :=
  let r := filepathClean root.data
  { rootDir := d.rootDir && !rootGone,
    files := fun q => if (q.data = r ∨ below r q.data) ∧ !kept q then none else d.files q }

/-- Go's `os.Remove(p)`. It fails on the paths `stuck`, and then nothing
changes. When it goes through, what was at `p` is gone: the regular file, or
the cache root directory when `p` is its path. -/
def removePath (root : String) (stuck : String → Bool) (p : String) (d : Disk) : Disk :=
  if stuck p then d
  else
    { rootDir := if p.data = filepathClean root.data then false else d.rootDir,
      files := fun q => if q = p then none else d.files q }

/-- No path is stuck or kept: every remove goes through. -/
def noStuck : String → Bool := fun _ => false

/-! ## The cache -/

/-- The function `cachePath(key)`: `filepath.Join(cache.root, key)`. -/
def cachePath (w : World) (key : String) : String := filepathJoin w.root key

/-- The function `cacheInit()`, with the value of `os.TempDir()`, the files on disk and the
clock at start-up: a fresh map, the root set and made. -/
def cacheInit (tmp : String) (files : String → Option Bytes) (t0 : Nat) : World :=
  { now := t0, root := tmp, timers := fun _ => none, heap := [],
    disk := { rootDir := true, files := files }, fetched := [], stored := fun _ => none }

/-- The function `cacheClean()`: `os.RemoveAll(cache.root)`, with what the
outside lets it remove. The map and the timers are not touched. -/
def cacheClean (kept : String → Bool) (rootGone : Bool) (w : World) : World :=
  { w with disk := removeAll w.root kept rootGone w.disk }

/-- The callback of `cacheDeleteTimer(key)`: `delete(cache.timers, key)` and
`os.Remove(cachePath(key))`, whose error is dropped. -/
def expire (stuck : String → Bool) (key : String) (w : World) : World :=
  { w with timers := fun k => if k = key then none else w.timers k,
           disk := removePath w.root stuck (cachePath w key) w.disk }

/-- The function `cacheDeleteTimer(key)`: `time.AfterFunc(keep, ...)` makes a timer armed
`keep` from now; its address is returned. -/
def cacheDeleteTimer (keep : Nat) (key : String) (w : World) : Nat × World :=
  (w.heap.length, { w with heap := w.heap ++ [{ key := key, deadline := some (w.now + keep) }] })

/-- The function `cacheDownload(key)`. The `err` of `GetObject` is never read: the next
statement that reads `err` comes after `os.OpenFile` has assigned it again.
`defer src.Body.Close()` faults on a `nil` body. -/
def cacheDownload (keep : Nat) (env : Env) (key : String) (w : World) :
    Result (Option Err) × World :=
  let w1 := { w with fetched := w.fetched ++ [key] }
  match env.getBody with
  | none => (.fault, w1)
  | some body =>
    match openFile env w1.root (cachePath w1 key) w1.disk with
    | .error e => (.ret (some e), w1)
    | .ok d2 =>
      match ioCopy env (cachePath w1 key) body d2 with
      | (some e, d3) => (.ret (some e), { w1 with disk := d3 })
      | (none, d3) =>
        let (t, w4) := cacheDeleteTimer keep key { w1 with disk := d3 }
        (.ret none,
          { w4 with timers := fun k => if k = key then some t else w4.timers k,
                    stored := fun k => if k = key then some body else w4.stored k })

/-- Go's `t.Reset(d)` at address `i`: the timer is armed to fire at `d`. -/
def resetAt (d : Nat) : Nat → List Timer → List Timer
  | _, [] => []
  | 0, t :: ts => { t with deadline := some d } :: ts
  | i + 1, t :: ts => t :: resetAt d i ts

/-- The first locked block of `cacheEnsure`: `t := cache.timers[key]`. -/
def ensureLookup (key : String) (w : World) : Option Nat := w.timers key

/-- The second locked block of `cacheEnsure`: `cache.timers[key].Reset(keep)`.
`none` is the fault of calling `Reset` on the `nil` of a missing key. -/
def ensureReset (keep : Nat) (key : String) (w : World) : Option World :=
  match w.timers key with
  | none => none
  | some i => some { w with heap := resetAt (w.now + keep) i w.heap }

/-- The end of `cacheEnsure`: the reset, then `return cachePath(key), nil`. -/
def ensureFinish (keep : Nat) (key : String) (w : World) :
    Result (String × Option Err) × World :=
  match ensureReset keep key w with
  | none => (.fault, w)
  | some w' => (.ret (cachePath w' key, none), w')

/-- The function `cacheEnsure(key)`, run without interruption. -/
def cacheEnsure (keep : Nat) (env : Env) (key : String) (w : World) :
    Result (String × Option Err) × World :=
  match ensureLookup key w with
  | none =>
    match cacheDownload keep env key w with
    | (.fault, w1) => (.fault, w1)
    | (.ret (some e), w1) => (.ret ("", some e), w1)
    | (.ret none, w1) => ensureFinish keep key w1
  | some _ => ensureFinish keep key w

/-- Whether a timer is armed and due at instant `t`. -/
def Timer.due (t : Nat) (tm : Timer) : Bool :=
  match tm.deadline with
  | some d => d ≤ t
  | none => false

/-- The callbacks of a list of keys, one after the other. -/
def expireAll (stuck : String → Bool) (ks : List String) (w : World) : World :=
  ks.foldl (fun v k => expire stuck k v) w

/-- The keys of the timers that fire when the clock reaches `t`. -/
def dueKeys (t : Nat) (w : World) : List String := (w.heap.filter (Timer.due t)).map Timer.key

/-- The clock advances by `d`; every timer due by then fires: it is disarmed
and its callback runs. The removes of the callbacks fail on the paths
`stuck`. -/
def elapse (d : Nat) (stuck : String → Bool) (w : World) : World :=
  let t := w.now + d
  expireAll stuck (dueKeys t w)
    { w with now := t,
             heap := w.heap.map fun tm => if tm.due t then { tm with deadline := none } else tm }

/-- One thing that happens to the cache: a call of `cacheEnsure`, time going
by, or a call of `cacheClean`, each with what the outside does meanwhile. -/
inductive Act where
  | ensure (env : Env) (key : String)
  | wait (d : Nat) (stuck : String → Bool)
  | clean (kept : String → Bool) (rootGone : Bool)

/-- The world after an action. -/
def step (keep : Nat) (w : World) : Act → World
  | .ensure env key => (cacheEnsure keep env key w).2
  | .wait d stuck => elapse d stuck w
  | .clean kept rootGone => cacheClean kept rootGone w

/-- The world after a sequence of actions. -/
def run (keep : Nat) (acts : List Act) (w : World) : World := acts.foldl (step keep) w

/-- The value of `const keep = time.Hour`, with the clock counting seconds. -/
def keepHour : Nat := 3600

/-- An outside in which nothing fails and the object has content `b`. -/
def Env.good (b : Bytes) : Env := { getBody := some b, getErr := none, openErr := none, copyErr := none }

/-- An outside in which the object with content `b` is served and the local
file cannot be opened. -/
def Env.denied (b : Bytes) : Env :=
  { getBody := some b, getErr := none, openErr := some "permission denied", copyErr := none }

/-- An outside in which the object with content `b` is served and the disk is
full after `n` bytes. -/
def Env.diskFull (b : Bytes) (n : Nat) : Env :=
  { getBody := some b, getErr := none, openErr := none,
    copyErr := some (n, "no space left on device") }

/-- An outside in which `GetObject` fails: a `nil` body and the error `msg`. -/
def Env.failed (msg : Err) : Env :=
  { getBody := none, getErr := some msg, openErr := none, copyErr := none }

/-- The cache just started on an empty `/tmp`, at instant 0. -/
def fresh : World := cacheInit "/tmp" (fun _ => none) 0

/-- The cache just started on a `/tmp` that holds a three-byte file `a`. -/
def freshOverOld : World :=
  cacheInit "/tmp" (fun q => if q = "/tmp/a" then some [1, 2, 3] else none) 0

/-- The cache just started on an empty `/tmp`, next to a one-byte file `/x`. -/
def freshBesideOld : World :=
  cacheInit "/tmp" (fun q => if q = "/x" then some [1] else none) 0

/-- Only the remove of `p` fails. -/
def onlyStuck (p : String) : String → Bool := fun q => decide (q = p)

/-- With `keep` 2: `a` is cached at instant 0 and the clock shows 1. -/
def cachedAtOne : World := run 2 [.ensure (Env.good [7]) "a", .wait 1 noStuck] fresh

/-- The function `cacheEnsure(key)` with something else happening between its two locked
blocks: `between` acts on the world after the first block (and the download,
when there is one) has run and before the second block takes the lock. -/
def cacheEnsureBetween (between : World → World) (keep : Nat) (env : Env) (key : String)
    (w : World) : Result (String × Option Err) × World :=
  match ensureLookup key w with
  | none =>
    match cacheDownload keep env key w with
    | (.fault, w1) => (.fault, w1)
    | (.ret (some e), w1) => (.ret ("", some e), w1)
    | (.ret none, w1) => ensureFinish keep key (between w1)
  | some _ => ensureFinish keep key (between w)

/-- The states the cache can be in: those reached from `cacheInit` by calls of
`cacheEnsure`, time going by with its timer expiries, and calls of
`cacheClean`. -/
def Reachable (keep : Nat) (w : World) : Prop :=
  ∃ tmp files t0 acts, w = run keep acts (cacheInit tmp files t0)

/-! ## Predicates on states -/

/-- The five ways a call of `cacheEnsure` can go. -/
inductive Went (keep : Nat) (env : Env) (key : String) (w : World) : Prop where
  | hit (i : Nat) (h : w.timers key = some i)
      (eq : cacheEnsure keep env key w =
        (.ret (cachePath w key, none), { w with heap := resetAt (w.now + keep) i w.heap }))
  | fault (h : w.timers key = none) (hb : env.getBody = none)
      (eq : cacheEnsure keep env key w = (.fault, { w with fetched := w.fetched ++ [key] }))
  | openFailed (h : w.timers key = none) (b : Bytes) (hb : env.getBody = some b) (e : Err)
      (ho : openFile env w.root (cachePath w key) w.disk = .error e)
      (eq : cacheEnsure keep env key w =
        (.ret ("", some e), { w with fetched := w.fetched ++ [key] }))
  | copyFailed (h : w.timers key = none) (b : Bytes) (hb : env.getBody = some b) (d2 : Disk)
      (ho : openFile env w.root (cachePath w key) w.disk = .ok d2)
      (n : Nat) (e : Err) (hc : env.copyErr = some (n, e))
      (eq : cacheEnsure keep env key w =
        (.ret ("", some e),
          { w with fetched := w.fetched ++ [key],
                   disk := writeFile (cachePath w key)
                        (overwrite (b.take n) ((w.disk.files (cachePath w key)).getD [])) w.disk }))
  | done (h : w.timers key = none) (b : Bytes) (hb : env.getBody = some b) (d2 : Disk)
      (ho : openFile env w.root (cachePath w key) w.disk = .ok d2)
      (hc : env.copyErr = none)
      (eq : cacheEnsure keep env key w =
        (.ret (cachePath w key, none),
          { w with fetched := w.fetched ++ [key],
                   disk := writeFile (cachePath w key)
                        (overwrite b ((w.disk.files (cachePath w key)).getD [])) w.disk,
                   heap := w.heap ++ [{ key := key, deadline := some (w.now + keep) }],
                   timers := fun k => if k = key then some w.heap.length else w.timers k,
                   stored := fun k => if k = key then some b else w.stored k }))

/-- In a state reached by whole calls, the map and the armed timers describe
each other: the timer of a key captures that key, an armed timer is the one
the map holds for its key, and a key with a timer has been fetched. -/
structure WF (w : World) : Prop where
  entry : ∀ k i, w.timers k = some i → ∃ tm, w.heap[i]? = some tm ∧ tm.key = k
  armed : ∀ i tm, w.heap[i]? = some tm → tm.deadline ≠ none → w.timers tm.key = some i
  logged : ∀ k i, w.timers k = some i → k ∈ w.fetched

/-- The key has a timer in the map, armed to fire at `D`. -/
def Live (key : String) (D : Nat) (w : World) : Prop :=
  ∃ i, w.timers key = some i ∧ w.heap[i]? = some { key := key, deadline := some D }

/-- The time that goes by in a sequence of actions. -/
def span : List Act → Nat
  | [] => 0
  | .wait d _ :: rest => d + span rest
  | .ensure _ _ :: rest => span rest
  | .clean _ _ :: rest => span rest

/-- An action that is not a call of `cacheEnsure` for `key`. -/
def Act.Other (key : String) : Act → Prop
  | .ensure _ k => k ≠ key
  | .wait _ _ => True
  | .clean _ _ => True

/-- Every action of a run has the property `P` in the state it acts on. -/
def Along (keep : Nat) (P : World → Act → Prop) : World → List Act → Prop
  | _, [] => True
  | w, a :: rest => P w a ∧ Along keep P (step keep w a) rest

/-- An action that, in the state `w`, neither makes a file at `p` nor fails to
remove one: it is not a call of `cacheEnsure` for a key whose path is `p`, and
when one of its timer callbacks removes `p`, the remove goes through. -/
def Off (p : String) (w : World) : Act → Prop
  | .ensure _ k => cachePath w k ≠ p
  | .wait d stuck => p ∈ (dueKeys (w.now + d) w).map (cachePath w) → stuck p = false
  | .clean _ _ => True

/-- The call `cacheEnsure(key)` in the state `w` gets to `io.Copy`, and
`io.Copy` fails. -/
def CopyFails (env : Env) (key : String) (w : World) : Prop :=
  w.timers key = none ∧ env.getBody ≠ none ∧ env.copyErr ≠ none ∧
    ∃ d2, openFile env w.root (cachePath w key) w.disk = .ok d2

/-- The later calls for a key: each one comes with what happens between the
call before it and itself. -/
def later (key : String) : List (List Act × Env) → List Act
  | [] => []
  | c :: rest => c.1 ++ .ensure c.2 key :: later key rest

/-- An action of a run in which `cacheClean` is not called, no `io.Copy` and
no `os.Remove` of a timer callback fails and every key comes from `K`. -/
def Tidy (K : Set String) (w : World) : Act → Prop
  | .ensure env key => key ∈ K ∧ ¬ CopyFails env key w
  | .wait d stuck => ∀ k ∈ dueKeys (w.now + d) w, stuck (cachePath w k) = false
  | .clean _ _ => False

/-- An action that is not a call of `cacheClean`. -/
def Act.Kept : Act → Prop
  | .ensure _ _ => True
  | .wait _ _ => True
  | .clean _ _ => False

/-- The cache root directory is there, no timer was ever made for a key whose
path is the cache root, and the empty key has no entry. -/
structure Rooted (w : World) : Prop where
  dir : w.disk.rootDir = true
  paths : ∀ tm ∈ w.heap, (cachePath w tm.key).data ≠ filepathClean w.root.data
  blank : w.timers "" = none

/-- For the keys of `K`: a key without a timer has no file, and a key with a
timer has a file that holds the body of its latest download. -/
structure Sync (K : Set String) (w : World) : Prop where
  keys : ∀ tm ∈ w.heap, tm.key ∈ K
  absent : ∀ k ∈ K, w.timers k = none → w.disk.files (cachePath w k) = none
  present : ∀ k ∈ K, ∀ i, w.timers k = some i →
    ∃ b, w.stored k = some b ∧ w.disk.files (cachePath w k) = some b

end AwsCache

/-! ## `facebook_api.go` -/

namespace FacebookApi

/-- A request as far as `profileHandler` reads it. -/
structure Request where
  /-- The cookies of the request, by name. -/
  cookies : String → Option String
  /-- Go's `r.Header.Get`: the empty string for a header that is not there. -/
  header : String → String

/-- The error values `r.Cookie` can return. -/
inductive CookieErr where
  | errNoCookie
  | other (msg : String)
  deriving DecidableEq

/-- Go's `r.Cookie(name)`: the cookie with `nil`, or `nil` with `http.ErrNoCookie`.
A cookie is kept as its `Value`. -/
def Request.cookie (r : Request) (name : String) : Option String × Option CookieErr :=
  match r.cookies name with
  | some v => (some v, none)
  | none => (none, some .errNoCookie)

/-- Go's `strings.TrimPrefix`. -/
def trimPrefix (s pre : String) : String :=
  if pre.data.isPrefixOf s.data then String.mk (s.data.drop pre.data.length) else s

/-- What `profileHandler` does up to the profile call. -/
inductive Reply where
  /-- A run-time fault: a `nil` pointer is dereferenced. -/
  | fault
  /-- The reply of `http.Error(w, msg, code)`. -/
  | error (msg : String) (code : Nat)
  /-- The call `facebookCall("GET", "me", token, fields, &u)` is made. -/
  | profileCall (token : String)
  deriving DecidableEq

/-- A request with the header `Authentication: Bearer abc` and the given
cookies. -/
def withBearer (cookies : String → Option String) : Request :=
  { cookies := cookies, header := fun n => if n = "Authentication" then "Bearer abc" else "" }

/-- A request without headers and with the given cookies. -/
def withoutHeader (cookies : String → Option String) : Request :=
  { cookies := cookies, header := fun _ => "" }

/-- No cookie at all. -/
def noCookies : String → Option String := fun _ => none

/-- The cookie `facebook-auth` with an empty value, as `logoutHandler` sets it. -/
def loggedOut : String → Option String := fun n => if n = "facebook-auth" then some "" else none

/-- The token selection of `profileHandler`. -/
def profileHandler (r : Request) : Reply :=
  match r.cookie "facebook-auth" with
  | (c, err) =>
    if err ≠ none ∧ err ≠ some .errNoCookie then
      .error (match err with | some (.other msg) => msg | _ => "") 500
    else
      match c with
      | none => .fault
      | some value =>
        let token :=
          if value ≠ "" then value
          else
            let h := r.header "Authentication"
            if h ≠ "" then
              let h := trimPrefix h "Bearer "
              if h ≠ "" then h else ""
            else ""
        if token = "" then .error "Forbidden" 403 else .profileCall token

end FacebookApi

namespace AwsCache

/-! ## Frame lemmas -/

section Frame

variable (keep : Nat) (env : Env) (key : String) (w : World)

theorem resetAt_getElem? (d : Nat) (i j : Nat) (l : List Timer) :
    (resetAt d i l)[j]? =
      if j = i then (l[j]?).map (fun t => { t with deadline := some d }) else l[j]? := by
  induction l generalizing i j with
  | nil => cases i <;> simp [resetAt]
  | cons t ts ih =>
    cases i with
    | zero => cases j <;> simp [resetAt]
    | succ i => cases j <;> simp [resetAt, ih]

variable (stuck : String → Bool)

@[simp] theorem expire_root : (expire stuck key w).root = w.root := rfl
@[simp] theorem expire_now : (expire stuck key w).now = w.now := rfl
@[simp] theorem expire_heap : (expire stuck key w).heap = w.heap := rfl
@[simp] theorem expire_fetched : (expire stuck key w).fetched = w.fetched := rfl
@[simp] theorem expire_stored : (expire stuck key w).stored = w.stored := rfl
@[simp] theorem expire_timers (k : String) :
    (expire stuck key w).timers k = if k = key then none else w.timers k := rfl
@[simp] theorem cachePath_expire (k : String) :
    cachePath (expire stuck key w) k = cachePath w k := rfl

theorem expire_files (q : String) :
    (expire stuck key w).disk.files q =
      if q = cachePath w key ∧ stuck q = false then none else w.disk.files q := by
  simp only [expire, removePath]
  by_cases hs : stuck (cachePath w key) = true
  · by_cases hq : q = cachePath w key
    · subst hq; simp [hs]
    · simp [hs, hq]
  · by_cases hq : q = cachePath w key
    · subst hq; simp [hs]
    · simp [hs, hq]

theorem expire_rootDir (h : (cachePath w key).data ≠ filepathClean w.root.data) :
    (expire stuck key w).disk.rootDir = w.disk.rootDir := by
  simp only [expire, removePath]
  split_ifs <;> rfl

@[simp] theorem expireAll_nil : expireAll stuck [] w = w := rfl
@[simp] theorem expireAll_cons (k : String) (ks : List String) :
    expireAll stuck (k :: ks) w = expireAll stuck ks (expire stuck k w) := rfl

@[simp] theorem expireAll_root (ks : List String) : (expireAll stuck ks w).root = w.root := by
  induction ks generalizing w with
  | nil => rfl
  | cons k ks ih => simp [ih]

@[simp] theorem expireAll_now (ks : List String) : (expireAll stuck ks w).now = w.now := by
  induction ks generalizing w with
  | nil => rfl
  | cons k ks ih => simp [ih]

@[simp] theorem expireAll_heap (ks : List String) : (expireAll stuck ks w).heap = w.heap := by
  induction ks generalizing w with
  | nil => rfl
  | cons k ks ih => simp [ih]

@[simp] theorem expireAll_fetched (ks : List String) :
    (expireAll stuck ks w).fetched = w.fetched := by
  induction ks generalizing w with
  | nil => rfl
  | cons k ks ih => simp [ih]

@[simp] theorem expireAll_stored (ks : List String) :
    (expireAll stuck ks w).stored = w.stored := by
  induction ks generalizing w with
  | nil => rfl
  | cons k ks ih => simp [ih]

@[simp] theorem cachePath_expireAll (ks : List String) (k : String) :
    cachePath (expireAll stuck ks w) k = cachePath w k := by
  simp [cachePath]

theorem expireAll_rootDir (ks : List String)
    (h : ∀ k ∈ ks, (cachePath w k).data ≠ filepathClean w.root.data) :
    (expireAll stuck ks w).disk.rootDir = w.disk.rootDir := by
  induction ks generalizing w with
  | nil => rfl
  | cons k ks ih =>
    rw [expireAll_cons, ih, expire_rootDir k w stuck (h k (List.mem_cons_self _ _))]
    intro k' hk'
    simpa using h k' (List.mem_cons_of_mem _ hk')

theorem expireAll_timers (ks : List String) (k : String) :
    (expireAll stuck ks w).timers k = if k ∈ ks then none else w.timers k := by
  induction ks generalizing w with
  | nil => simp
  | cons a ks ih =>
    simp only [expireAll_cons, ih, expire_timers, List.mem_cons]
    by_cases h1 : k ∈ ks <;> by_cases h2 : k = a <;> simp [h1, h2]

theorem expireAll_files (ks : List String) (q : String) :
    (expireAll stuck ks w).disk.files q =
      if q ∈ ks.map (cachePath w) ∧ stuck q = false then none else w.disk.files q := by
  induction ks generalizing w with
  | nil => simp
  | cons a ks ih =>
    simp only [expireAll_cons, ih, expire_files, List.map_cons, List.mem_cons]
    have hp : List.map (cachePath (expire stuck a w)) ks = List.map (cachePath w) ks := rfl
    rw [hp]
    by_cases h3 : stuck q = false
    · simp only [h3, and_true]
      by_cases h1 : q ∈ ks.map (cachePath w) <;> by_cases h2 : q = cachePath w a <;>
        simp [h1, h2]
    · simp [h3]

theorem elapse_eq (d : Nat) :
    elapse d stuck w = expireAll stuck (dueKeys (w.now + d) w)
      { w with now := w.now + d,
               heap := w.heap.map fun tm =>
                 if tm.due (w.now + d) then { tm with deadline := none } else tm } := rfl

@[simp] theorem elapse_root (d : Nat) : (elapse d stuck w).root = w.root := by
  simp [elapse_eq]
@[simp] theorem elapse_now (d : Nat) : (elapse d stuck w).now = w.now + d := by
  simp [elapse_eq]
@[simp] theorem elapse_fetched (d : Nat) : (elapse d stuck w).fetched = w.fetched := by
  simp [elapse_eq]
@[simp] theorem elapse_stored (d : Nat) : (elapse d stuck w).stored = w.stored := by
  simp [elapse_eq]
@[simp] theorem cachePath_elapse (d : Nat) (k : String) :
    cachePath (elapse d stuck w) k = cachePath w k := by simp [cachePath]

theorem elapse_heap (d : Nat) :
    (elapse d stuck w).heap = w.heap.map fun tm =>
      if tm.due (w.now + d) then { tm with deadline := none } else tm := by
  simp [elapse_eq]

theorem elapse_timers (d : Nat) (k : String) :
    (elapse d stuck w).timers k = if k ∈ dueKeys (w.now + d) w then none else w.timers k := by
  simp [elapse_eq, expireAll_timers]

theorem elapse_files (d : Nat) (q : String) :
    (elapse d stuck w).disk.files q =
      if q ∈ (dueKeys (w.now + d) w).map (cachePath w) ∧ stuck q = false then none
      else w.disk.files q := by
  rw [elapse_eq, expireAll_files]
  rfl

theorem mem_dueKeys (t : Nat) (k : String) :
    k ∈ dueKeys t w ↔ ∃ tm ∈ w.heap, tm.due t = true ∧ tm.key = k := by
  simp [dueKeys, and_assoc]

theorem elapse_rootDir (d : Nat)
    (h : ∀ tm ∈ w.heap, (cachePath w tm.key).data ≠ filepathClean w.root.data) :
    (elapse d stuck w).disk.rootDir = w.disk.rootDir := by
  rw [elapse_eq, expireAll_rootDir]
  intro k hk
  rw [mem_dueKeys] at hk
  obtain ⟨tm, hmem, -, hkey⟩ := hk
  rw [← hkey]
  exact h tm hmem

@[simp] theorem writeFile_files (p : String) (c : Bytes) (d : Disk) (q : String) :
    (writeFile p c d).files q = if q = p then some c else d.files q := rfl

@[simp] theorem writeFile_rootDir (p : String) (c : Bytes) (d : Disk) :
    (writeFile p c d).rootDir = d.rootDir := rfl

@[simp] theorem writeFile_writeFile (p : String) (c c2 : Bytes) (d : Disk) :
    writeFile p c2 (writeFile p c d) = writeFile p c2 d := by
  unfold writeFile
  congr 1
  funext q
  by_cases h : q = p <;> simp [h]

theorem openFile_ok {env : Env} {root p : String} {d d2 : Disk}
    (h : openFile env root p d = .ok d2) :
    d2 = writeFile p ((d.files p).getD []) d := by
  unfold openFile at h
  split at h
  · cases h
  · simp only at h
    split_ifs at h
    cases h
    rfl

theorem ioCopy_none {env : Env} (p : String) (b : Bytes) (d : Disk) (h : env.copyErr = none) :
    ioCopy env p b d = (none, writeFile p (overwrite b ((d.files p).getD [])) d) := by
  simp [ioCopy, h]

theorem ioCopy_some {env : Env} (p : String) (b : Bytes) (d : Disk) {n : Nat} {e : Err}
    (h : env.copyErr = some (n, e)) :
    ioCopy env p b d =
      (some e, writeFile p (overwrite (b.take n) ((d.files p).getD [])) d) := by
  simp [ioCopy, h]

theorem resetAt_length_append (d : Nat) (l : List Timer) (k : String) :
    resetAt d l.length (l ++ [{ key := k, deadline := some d }]) =
      l ++ [{ key := k, deadline := some d }] := by
  induction l with
  | nil => rfl
  | cons t ts ih => simp [resetAt, ih]

/-- A call that finds a timer: no download, the timer is reset. -/
theorem cacheEnsure_hit {i : Nat} (h : w.timers key = some i) :
    cacheEnsure keep env key w =
      (.ret (cachePath w key, none), { w with heap := resetAt (w.now + keep) i w.heap }) := by
  simp [cacheEnsure, ensureLookup, ensureFinish, ensureReset, h, cachePath]

/-- A call that finds no timer and gets a `nil` body. -/
theorem cacheEnsure_miss_fault (h : w.timers key = none) (hb : env.getBody = none) :
    cacheEnsure keep env key w = (.fault, { w with fetched := w.fetched ++ [key] }) := by
  simp [cacheEnsure, ensureLookup, cacheDownload, h, hb]

/-- A call that finds no timer and cannot open the file. -/
theorem cacheEnsure_miss_open (h : w.timers key = none) {b : Bytes} (hb : env.getBody = some b)
    {e : Err} (ho : openFile env w.root (cachePath w key) w.disk = .error e) :
    cacheEnsure keep env key w =
      (.ret ("", some e), { w with fetched := w.fetched ++ [key] }) := by
  have ho2 : openFile env w.root (filepathJoin w.root key) w.disk = .error e := ho
  simp [cacheEnsure, ensureLookup, cacheDownload, h, hb, cachePath, ho2]

/-- A call that finds no timer and whose copy fails. -/
theorem cacheEnsure_miss_copy (h : w.timers key = none) {b : Bytes} (hb : env.getBody = some b)
    {d2 : Disk} (ho : openFile env w.root (cachePath w key) w.disk = .ok d2)
    {n : Nat} {e : Err} (hc : env.copyErr = some (n, e)) :
    cacheEnsure keep env key w =
      (.ret ("", some e),
        { w with fetched := w.fetched ++ [key],
                 disk := writeFile (cachePath w key)
                        (overwrite (b.take n) ((w.disk.files (cachePath w key)).getD [])) w.disk }) := by
  have ho2 : openFile env w.root (filepathJoin w.root key) w.disk = .ok d2 := ho
  have hd := openFile_ok ho
  subst hd
  simp [cacheEnsure, ensureLookup, cacheDownload, h, hb, cachePath, ho2, ioCopy_some _ _ _ hc]

/-- A call that finds no timer and whose download goes through. -/
theorem cacheEnsure_miss_ok (h : w.timers key = none) {b : Bytes} (hb : env.getBody = some b)
    {d2 : Disk} (ho : openFile env w.root (cachePath w key) w.disk = .ok d2)
    (hc : env.copyErr = none) :
    cacheEnsure keep env key w =
      (.ret (cachePath w key, none),
        { w with fetched := w.fetched ++ [key],
                 disk := writeFile (cachePath w key)
                        (overwrite b ((w.disk.files (cachePath w key)).getD [])) w.disk,
                 heap := w.heap ++ [{ key := key, deadline := some (w.now + keep) }],
                 timers := fun k => if k = key then some w.heap.length else w.timers k,
                 stored := fun k => if k = key then some b else w.stored k }) := by
  have ho2 : openFile env w.root (filepathJoin w.root key) w.disk = .ok d2 := ho
  have hd := openFile_ok ho
  subst hd
  simp [cacheEnsure, ensureLookup, cacheDownload, h, hb, cachePath, ho2, ioCopy_none _ _ _ hc,
    cacheDeleteTimer, ensureFinish, ensureReset, resetAt_length_append]

theorem cacheEnsure_went : Went keep env key w := by
  cases h : w.timers key with
  | some i => exact .hit i h (cacheEnsure_hit keep env key w h)
  | none =>
    cases hb : env.getBody with
    | none => exact .fault h hb (cacheEnsure_miss_fault keep env key w h hb)
    | some b =>
      cases ho : openFile env w.root (cachePath w key) w.disk with
      | error e => exact .openFailed h b hb e ho (cacheEnsure_miss_open keep env key w h hb ho)
      | ok d2 =>
        cases hc : env.copyErr with
        | none => exact .done h b hb d2 ho hc (cacheEnsure_miss_ok keep env key w h hb ho hc)
        | some ne =>
          obtain ⟨n, e⟩ := ne
          exact .copyFailed h b hb d2 ho n e hc (cacheEnsure_miss_copy keep env key w h hb ho hc)

@[simp] theorem cacheEnsure_root : (cacheEnsure keep env key w).2.root = w.root := by
  cases cacheEnsure_went keep env key w <;> simp [*]

@[simp] theorem cacheEnsure_now : (cacheEnsure keep env key w).2.now = w.now := by
  cases cacheEnsure_went keep env key w <;> simp [*]

@[simp] theorem cachePath_cacheEnsure (k : String) :
    cachePath (cacheEnsure keep env key w).2 k = cachePath w k := by
  simp [cachePath]

@[simp] theorem cacheClean_root (kept : String → Bool) (g : Bool) :
    (cacheClean kept g w).root = w.root := rfl

@[simp] theorem step_root (a : Act) : (step keep w a).root = w.root := by
  cases a <;> simp [step]

@[simp] theorem run_nil : run keep [] w = w := rfl

@[simp] theorem run_cons (a : Act) (acts : List Act) :
    run keep (a :: acts) w = run keep acts (step keep w a) := rfl

theorem run_append (xs ys : List Act) :
    run keep (xs ++ ys) w = run keep ys (run keep xs w) := by
  simp [run, List.foldl_append]

@[simp] theorem run_root (acts : List Act) : (run keep acts w).root = w.root := by
  induction acts generalizing w with
  | nil => rfl
  | cons a acts ih => simp [ih]

end Frame

/-! ## The map and the timers agree -/

theorem WF.init (tmp : String) (files : String → Option Bytes) (t0 : Nat) :
    WF (cacheInit tmp files t0) := by
  constructor <;> simp [cacheInit]

theorem WF.ensure {w : World} (hw : WF w) (keep : Nat) (env : Env) (key : String) :
    WF (cacheEnsure keep env key w).2 := by
  cases cacheEnsure_went keep env key w with
  | hit i h eq =>
    rw [eq]
    obtain ⟨tmi, hi, hki⟩ := hw.entry key i h
    refine ⟨?_, ?_, hw.logged⟩
    · intro k j hj
      obtain ⟨tm, htm, hk⟩ := hw.entry k j hj
      simp only [resetAt_getElem?, htm]
      by_cases hji : j = i <;> simp [hji, hk]
    · intro j tm hj hd
      simp only [resetAt_getElem?] at hj
      by_cases hji : j = i
      · subst hji
        simp [hi] at hj
        subst hj
        simpa [hki] using h
      · simp only [hji, if_false] at hj
        exact hw.armed j tm hj hd
  | fault h hb eq =>
    rw [eq]
    exact ⟨hw.entry, hw.armed, fun k i hk => by simp [hw.logged k i hk]⟩
  | openFailed h b hb e ho eq =>
    rw [eq]
    exact ⟨hw.entry, hw.armed, fun k i hk => by simp [hw.logged k i hk]⟩
  | copyFailed h b hb d2 ho n e hc eq =>
    rw [eq]
    exact ⟨hw.entry, hw.armed, fun k i hk => by simp [hw.logged k i hk]⟩
  | done h b hb d2 ho hc eq =>
    rw [eq]
    refine ⟨?_, ?_, ?_⟩
    · intro k j hj
      simp only at hj
      by_cases hk : k = key
      · simp only [hk, if_true, Option.some.injEq] at hj
        subst hj
        exact ⟨{ key := key, deadline := some (w.now + keep) }, by simp, hk.symm⟩
      · simp only [hk, if_false] at hj
        obtain ⟨tm, htm, hkk⟩ := hw.entry k j hj
        have hlt : j < w.heap.length := by
          by_contra hge
          rw [List.getElem?_eq_none (Nat.le_of_not_lt hge)] at htm
          cases htm
        exact ⟨tm, by simp [List.getElem?_append_left hlt, htm], hkk⟩
    · intro j tm hj hd
      simp only at hj ⊢
      by_cases hlt : j < w.heap.length
      · rw [List.getElem?_append_left hlt] at hj
        have := hw.armed j tm hj hd
        have hne : tm.key ≠ key := by
          intro hk
          rw [hk, h] at this
          cases this
        simpa [hne] using this
      · have hge : w.heap.length ≤ j := Nat.le_of_not_lt hlt
        rw [List.getElem?_append_right hge] at hj
        have hj0 : j - w.heap.length = 0 := by
          by_contra hne
          obtain ⟨m, hm⟩ := Nat.exists_eq_succ_of_ne_zero hne
          rw [hm] at hj
          simp at hj
        rw [hj0] at hj
        simp at hj
        subst hj
        simp
        omega
    · intro k j hj
      simp only at hj ⊢
      by_cases hk : k = key
      · simp [hk]
      · simp only [hk, if_false] at hj
        simp [hw.logged k j hj]

theorem WF.elapse {w : World} (hw : WF w) (d : Nat) (stuck : String → Bool) :
    WF (elapse d stuck w) := by
  refine ⟨?_, ?_, ?_⟩
  · intro k i hk
    rw [elapse_timers] at hk
    split_ifs at hk
    obtain ⟨tm, htm, hkk⟩ := hw.entry k i hk
    refine ⟨_, by rw [elapse_heap, List.getElem?_map, htm]; rfl, ?_⟩
    show (if tm.due (w.now + d) = true then { tm with deadline := none } else tm).key = k
    split_ifs <;> simpa using hkk
  · intro i tm hi hd
    rw [elapse_heap, List.getElem?_map] at hi
    cases h0 : w.heap[i]? with
    | none => simp [h0] at hi
    | some t0 =>
      simp only [h0, Option.map_some'] at hi
      by_cases hdue : t0.due (w.now + d) = true
      · simp only [hdue, if_true, Option.some.injEq] at hi
        subst hi
        simp at hd
      · simp only [hdue, Option.some.injEq] at hi
        simp only [Bool.false_eq_true, if_false] at hi
        subst hi
        have h1 := hw.armed i t0 h0 hd
        rw [elapse_timers]
        have hnot : t0.key ∉ dueKeys (w.now + d) w := by
          rw [mem_dueKeys]
          rintro ⟨t2, hmem, hdue2, hkey⟩
          obtain ⟨j, hj⟩ := List.getElem?_of_mem hmem
          have harm : t2.deadline ≠ none := by
            intro hn
            simp [Timer.due, hn] at hdue2
          have h2 := hw.armed j t2 hj harm
          rw [hkey, h1] at h2
          cases h2
          rw [h0] at hj
          cases hj
          exact hdue hdue2
        simp [hnot, h1]
  · intro k i hk
    rw [elapse_timers] at hk
    split_ifs at hk
    simpa using hw.logged k i hk

theorem WF.clean {w : World} (hw : WF w) (kept : String → Bool) (g : Bool) :
    WF (cacheClean kept g w) :=
  ⟨hw.entry, hw.armed, hw.logged⟩

theorem WF.step {w : World} (hw : WF w) (keep : Nat) (a : Act) : WF (step keep w a) := by
  cases a with
  | ensure env key => exact hw.ensure keep env key
  | wait d stuck => exact hw.elapse d stuck
  | clean kept g => exact hw.clean kept g

theorem WF.run {w : World} (hw : WF w) (keep : Nat) (acts : List Act) : WF (run keep acts w) := by
  induction acts generalizing w with
  | nil => exact hw
  | cons a acts ih => exact ih (hw.step keep a)

/-! ## A live entry -/

theorem cacheEnsure_fetched_miss (keep : Nat) (env : Env) (key : String) (w : World)
    (h : w.timers key = none) :
    (cacheEnsure keep env key w).2.fetched = w.fetched ++ [key] := by
  cases cacheEnsure_went keep env key w with
  | hit i h' eq => rw [h] at h'; cases h'
  | fault h hb eq => rw [eq]
  | openFailed h b hb e ho eq => rw [eq]
  | copyFailed h b hb d2 ho n e hc eq => rw [eq]
  | done h b hb d2 ho hc eq => rw [eq]

theorem cacheEnsure_fetched_hit (keep : Nat) (env : Env) (key : String) (w : World) {i : Nat}
    (h : w.timers key = some i) :
    (cacheEnsure keep env key w).2.fetched = w.fetched := by
  rw [cacheEnsure_hit keep env key w h]

/-- After a call that returns no error the key has a timer armed a full `keep`
from the call, whether the call downloaded or not. -/
theorem live_of_ensure {w : World} (hw : WF w) (keep : Nat) (env : Env) (key : String)
    {p : String} (h : (cacheEnsure keep env key w).1 = .ret (p, none)) :
    p = cachePath w key ∧ Live key (w.now + keep) (cacheEnsure keep env key w).2 := by
  cases cacheEnsure_went keep env key w with
  | hit i hi eq =>
    rw [eq] at h ⊢
    simp only [Result.ret.injEq, Prod.mk.injEq, and_true] at h
    obtain ⟨tm, htm, hk⟩ := hw.entry key i hi
    refine ⟨h.symm, i, hi, ?_⟩
    simp only [resetAt_getElem?, htm, if_true, Option.map_some', ← hk]
  | fault h' hb eq => rw [eq] at h; cases h
  | openFailed h' b hb e ho eq => rw [eq] at h; simp at h
  | copyFailed h' b hb d2 ho n e hc eq => rw [eq] at h; simp at h
  | done h' b hb d2 ho hc eq =>
    rw [eq] at h ⊢
    simp only [Result.ret.injEq, Prod.mk.injEq, and_true] at h
    exact ⟨h.symm, w.heap.length, by simp, by simp⟩

/-- A live entry stays as it is while the clock is short of its deadline. -/
theorem live_elapse {w : World} (hw : WF w) {key : String} {D : Nat} (h : Live key D w)
    {d : Nat} (stuck : String → Bool) (hd : w.now + d < D) : Live key D (elapse d stuck w) := by
  obtain ⟨i, hi, htm⟩ := h
  have hnot : key ∉ dueKeys (w.now + d) w := by
    rw [mem_dueKeys]
    rintro ⟨t2, hmem, hdue2, hkey⟩
    obtain ⟨j, hj⟩ := List.getElem?_of_mem hmem
    have harm : t2.deadline ≠ none := by
      intro hn
      simp [Timer.due, hn] at hdue2
    have h2 := hw.armed j t2 hj harm
    rw [hkey, hi] at h2
    cases h2
    rw [htm] at hj
    cases hj
    simp [Timer.due] at hdue2
    omega
  refine ⟨i, by simp [elapse_timers, hnot, hi], ?_⟩
  rw [elapse_heap, List.getElem?_map, htm]
  have : ¬ D ≤ w.now + d := by omega
  simp [Timer.due, this]

theorem live_due {w : World} {key : String} {D : Nat} (h : Live key D w)
    {d : Nat} (hd : D ≤ w.now + d) : key ∈ dueKeys (w.now + d) w := by
  obtain ⟨i, hi, htm⟩ := h
  rw [mem_dueKeys]
  exact ⟨{ key := key, deadline := some D }, List.getElem?_mem htm, by simp [Timer.due, hd], rfl⟩

/-- Once the clock reaches the deadline of a live entry, the key has left the
map, and its file is gone unless the remove fails. -/
theorem live_expired {w : World} {key : String} {D : Nat} (h : Live key D w)
    {d : Nat} (stuck : String → Bool) (hd : D ≤ w.now + d) :
    (elapse d stuck w).timers key = none ∧
      (stuck (cachePath w key) = false →
        (elapse d stuck w).disk.files (cachePath w key) = none) := by
  obtain ⟨i, hi, htm⟩ := h
  have hmem : key ∈ dueKeys (w.now + d) w := by
    rw [mem_dueKeys]
    exact ⟨{ key := key, deadline := some D }, List.getElem?_mem htm, by simp [Timer.due, hd], rfl⟩
  constructor
  · simp [elapse_timers, hmem]
  · intro hs
    rw [elapse_files, if_pos]
    exact ⟨List.mem_map_of_mem _ hmem, hs⟩

theorem run_now (keep : Nat) (acts : List Act) (w : World) :
    (run keep acts w).now = w.now + span acts := by
  induction acts generalizing w with
  | nil => rfl
  | cons a acts ih =>
    rw [run_cons, ih]
    cases a <;> simp [step, span, cacheClean]; omega

theorem step_other_timers {keep : Nat} {key : String} {w : World} {a : Act}
    (ha : a.Other key) (h : w.timers key = none) : (step keep w a).timers key = none := by
  cases a with
  | ensure env k =>
    have hne : key ≠ k := fun heq => ha heq.symm
    simp only [step]
    cases cacheEnsure_went keep env k w with
    | hit i h' eq => rw [eq]; exact h
    | fault h' hb eq => rw [eq]; exact h
    | openFailed h' b hb e ho eq => rw [eq]; exact h
    | copyFailed h' b hb d2 ho n e hc eq => rw [eq]; exact h
    | done h' b hb d2 ho hc eq => rw [eq]; simp [hne, h]
  | wait d stuck =>
    simp only [step, elapse_timers, h]
    split_ifs <;> rfl
  | clean kept g => exact h

theorem run_other_timers {keep : Nat} {key : String} (acts : List Act) {w : World}
    (hacts : ∀ a ∈ acts, a.Other key) (h : w.timers key = none) :
    (run keep acts w).timers key = none := by
  induction acts generalizing w with
  | nil => exact h
  | cons a acts ih =>
    exact ih (fun a' h' => hacts a' (List.mem_cons_of_mem _ h'))
      (step_other_timers (hacts a (List.mem_cons_self _ _)) h)

theorem step_off_files {keep : Nat} {p : String} {w : World} {a : Act}
    (ha : Off p w a) (h : w.disk.files p = none) : (step keep w a).disk.files p = none := by
  cases a with
  | ensure env k =>
    have hne : p ≠ cachePath w k := fun heq => ha heq.symm
    simp only [step]
    cases cacheEnsure_went keep env k w with
    | hit i h' eq => rw [eq]; exact h
    | fault h' hb eq => rw [eq]; exact h
    | openFailed h' b hb e ho eq => rw [eq]; exact h
    | copyFailed h' b hb d2 ho n e hc eq => rw [eq]; simp [hne, h]
    | done h' b hb d2 ho hc eq => rw [eq]; simp [hne, h]
  | wait d stuck =>
    simp only [step, elapse_files, h]
    split_ifs <;> rfl
  | clean kept g =>
    simp only [step, cacheClean, removeAll, h]
    split_ifs <;> rfl

theorem run_off_files {keep : Nat} {p : String} (acts : List Act) {w : World}
    (hacts : Along keep (Off p) w acts) (h : w.disk.files p = none) :
    (run keep acts w).disk.files p = none := by
  induction acts generalizing w with
  | nil => exact h
  | cons a acts ih => exact ih hacts.2 (step_off_files hacts.1 h)

theorem step_other_count {keep : Nat} {key : String} {w : World} {a : Act}
    (ha : a.Other key) : (step keep w a).fetched.count key = w.fetched.count key := by
  cases a with
  | ensure env k =>
    have hne : k ≠ key := ha
    simp only [step]
    cases cacheEnsure_went keep env k w with
    | hit i h' eq => rw [eq]
    | fault h' hb eq => rw [eq]; simp [List.count_singleton, hne]
    | openFailed h' b hb e ho eq => rw [eq]; simp [List.count_singleton, hne]
    | copyFailed h' b hb d2 ho n e hc eq => rw [eq]; simp [List.count_singleton, hne]
    | done h' b hb d2 ho hc eq => rw [eq]; simp [List.count_singleton, hne]
  | wait d stuck => simp [step]
  | clean kept g => rfl

/-- A live entry is left alone by a call for another key and by `cacheClean`,
and by the clock as long as it is short of the deadline. -/
theorem live_step (keep : Nat) {w : World} (hw : WF w) {key : String} {D : Nat}
    (h : Live key D w) {a : Act} (ha : a.Other key) (hd : w.now + span [a] < D) :
    Live key D (step keep w a) := by
  cases a with
  | ensure env k =>
    have hne : key ≠ k := fun heq => ha heq.symm
    obtain ⟨i, hi, htm⟩ := h
    simp only [step]
    cases cacheEnsure_went keep env k w with
    | hit j hj eq =>
      rw [eq]
      refine ⟨i, hi, ?_⟩
      have hij : i ≠ j := by
        intro hij
        subst hij
        obtain ⟨tm, htm', hk⟩ := hw.entry k i hj
        rw [htm] at htm'
        cases htm'
        exact hne hk
      simp [resetAt_getElem?, hij, htm]
    | fault h' hb eq => rw [eq]; exact ⟨i, hi, htm⟩
    | openFailed h' b hb e ho eq => rw [eq]; exact ⟨i, hi, htm⟩
    | copyFailed h' b hb d2 ho n e hc eq => rw [eq]; exact ⟨i, hi, htm⟩
    | done h' b hb d2 ho hc eq =>
      rw [eq]
      have hlt : i < w.heap.length := by
        by_contra hge
        rw [List.getElem?_eq_none (Nat.le_of_not_lt hge)] at htm
        cases htm
      exact ⟨i, by simp [hne, hi], by simp [List.getElem?_append_left hlt, htm]⟩
  | wait d stuck => exact live_elapse hw h stuck (by simpa [span] using hd)
  | clean kept g => exact h

theorem live_run {keep : Nat} {key : String} {D : Nat} (acts : List Act) {w : World}
    (hw : WF w) (h : Live key D w) (hacts : ∀ a ∈ acts, a.Other key)
    (hd : w.now + span acts < D) : Live key D (run keep acts w) := by
  induction acts generalizing w with
  | nil => exact h
  | cons a acts ih =>
    have hsp : span (a :: acts) = span [a] + span acts := by cases a <;> simp [span]
    have hnow : (step keep w a).now = w.now + span [a] := by
      have := run_now keep [a] w
      simpa using this
    exact ih (hw.step keep a)
      (live_step keep hw h (hacts a (List.mem_cons_self _ _)) (by omega))
      (fun a' h' => hacts a' (List.mem_cons_of_mem _ h')) (by omega)

/-- A live entry whose deadline the clock reaches while no call for the key is
made: the key is out of the map, and its file is gone unless a remove of it
has failed or a call for a key with the same path has been made. -/
theorem expired_run (keep : Nat) {key : String} {D : Nat} (acts : List Act) {w : World}
    (hw : WF w) (h : Live key D w) (hlt : w.now < D) (hacts : ∀ a ∈ acts, a.Other key)
    (hd : D ≤ w.now + span acts) :
    (run keep acts w).timers key = none ∧
      (Along keep (Off (cachePath w key)) w acts →
        (run keep acts w).disk.files (cachePath w key) = none) := by
  induction acts generalizing w with
  | nil => simp [span] at hd; omega
  | cons a acts ih =>
    have ha := hacts a (List.mem_cons_self _ _)
    have hrest : ∀ a' ∈ acts, a'.Other key := fun a' h' => hacts a' (List.mem_cons_of_mem _ h')
    have hsp : span (a :: acts) = span [a] + span acts := by cases a <;> simp [span]
    have hnow : (step keep w a).now = w.now + span [a] := by
      have := run_now keep [a] w
      simpa using this
    rw [run_cons]
    by_cases hfire : D ≤ w.now + span [a]
    · cases a with
      | wait d stuck =>
        have hfire2 : D ≤ w.now + d := by simpa [span] using hfire
        obtain ⟨h1, h2⟩ := live_expired h stuck hfire2
        refine ⟨run_other_timers acts hrest h1, fun hoff => ?_⟩
        have hst : stuck (cachePath w key) = false :=
          hoff.1 (List.mem_map_of_mem _ (live_due h hfire2))
        exact run_off_files acts hoff.2 (h2 hst)
      | ensure env k => simp [span] at hfire; omega
      | clean kept g => simp [span] at hfire; omega
    · have hl := live_step keep hw h ha (by omega)
      obtain ⟨h1, h2⟩ := ih (hw.step keep a) hl (by omega) hrest (by omega)
      refine ⟨h1, fun hoff => ?_⟩
      have hp : cachePath (step keep w a) key = cachePath w key := by simp [cachePath]
      rw [hp] at h2
      exact h2 hoff.2

theorem run_other_count {keep : Nat} {key : String} (acts : List Act) {w : World}
    (hacts : ∀ a ∈ acts, a.Other key) :
    (run keep acts w).fetched.count key = w.fetched.count key := by
  induction acts generalizing w with
  | nil => rfl
  | cons a acts ih =>
    rw [run_cons, ih (fun a' h' => hacts a' (List.mem_cons_of_mem _ h')),
      step_other_count (hacts a (List.mem_cons_self _ _))]

theorem later_count {keep : Nat} {key : String} (calls : List (List Act × Env))
    (hcalls : ∀ c ∈ calls, (∀ a ∈ c.1, a.Other key) ∧ span c.1 < keep) {w : World} (hw : WF w)
    (hl : Live key (w.now + keep) w) :
    (run keep (later key calls) w).fetched.count key = w.fetched.count key := by
  induction calls generalizing w with
  | nil => rfl
  | cons c rest ih =>
    obtain ⟨hoth, hsp⟩ := hcalls c (List.mem_cons_self _ _)
    have hw1 : WF (run keep c.1 w) := hw.run keep c.1
    have hl1 : Live key (w.now + keep) (run keep c.1 w) := live_run c.1 hw hl hoth (by omega)
    obtain ⟨i, hi, -⟩ := hl1
    have hret : (cacheEnsure keep c.2 key (run keep c.1 w)).1 =
        .ret (cachePath (run keep c.1 w) key, none) := by
      rw [cacheEnsure_hit keep c.2 key _ hi]
    have hl2 := (live_of_ensure hw1 keep c.2 key hret).2
    have hw2 := hw1.ensure keep c.2 key
    simp only [later, run_append, run_cons, step]
    rw [ih (fun c' hc' => hcalls c' (List.mem_cons_of_mem _ hc')) hw2 (by simpa using hl2),
      cacheEnsure_fetched_hit keep c.2 key _ hi, run_other_count c.1 hoth]

/-! ## The map and the disk agree -/

theorem mem_resetAt {d i : Nat} {l : List Timer} {tm : Timer} (h : tm ∈ resetAt d i l) :
    ∃ t0 ∈ l, t0.key = tm.key := by
  induction l generalizing i with
  | nil => simp [resetAt] at h
  | cons t ts ih =>
    cases i with
    | zero =>
      simp only [resetAt, List.mem_cons] at h
      rcases h with h | h
      · exact ⟨t, by simp, by simp [h]⟩
      · exact ⟨tm, by simp [h], rfl⟩
    | succ i =>
      simp only [resetAt, List.mem_cons] at h
      rcases h with h | h
      · exact ⟨t, by simp, by simp [h]⟩
      · obtain ⟨t0, h0, hk⟩ := ih h
        exact ⟨t0, by simp [h0], hk⟩

theorem overwrite_nil (b : Bytes) : overwrite b [] = b := by simp [overwrite]

theorem sync_init (K : Set String) (tmp : String) (files : String → Option Bytes) (t0 : Nat)
    (h : ∀ k ∈ K, files (filepathJoin tmp k) = none) : Sync K (cacheInit tmp files t0) := by
  refine ⟨?_, ?_, ?_⟩
  · simp [cacheInit]
  · intro k hk _
    exact h k hk
  · intro k _ i hi
    simp [cacheInit] at hi

theorem sync_ensure {K : Set String} {w : World} (hs : Sync K w)
    (hinj : Set.InjOn (filepathJoin w.root) K) (keep : Nat) (env : Env) {key : String}
    (hkey : key ∈ K) (henv : ¬ CopyFails env key w) : Sync K (cacheEnsure keep env key w).2 := by
  cases cacheEnsure_went keep env key w with
  | hit i h eq =>
    rw [eq]
    refine ⟨?_, hs.absent, hs.present⟩
    intro tm htm
    obtain ⟨t0, h0, hk⟩ := mem_resetAt htm
    rw [← hk]
    exact hs.keys t0 h0
  | fault h hb eq => rw [eq]; exact ⟨hs.keys, hs.absent, hs.present⟩
  | openFailed h b hb e ho eq => rw [eq]; exact ⟨hs.keys, hs.absent, hs.present⟩
  | copyFailed h b hb d2 ho n e hc eq =>
    exact absurd ⟨h, by simp [hb], by simp [hc], d2, ho⟩ henv
  | done h b hb d2 ho hc eq =>
    rw [eq]
    have hfile := hs.absent key hkey h
    have hpath : ∀ k ∈ K, k ≠ key → cachePath w k ≠ cachePath w key :=
      fun k hk hne heq => hne (hinj hk hkey heq)
    refine ⟨?_, ?_, ?_⟩
    · intro tm htm
      simp only [List.mem_append, List.mem_singleton] at htm
      rcases htm with htm | htm
      · exact hs.keys tm htm
      · rw [htm]; exact hkey
    · intro k hk hnone
      simp only at hnone
      have hne : k ≠ key := by
        intro heq
        simp [heq] at hnone
      simp only [hne, if_false] at hnone
      show (writeFile _ _ w.disk).files (cachePath w k) = none
      simp [hpath k hk hne, hs.absent k hk hnone]
    · intro k hk i hi
      simp only at hi
      show ∃ b', (if k = key then some b else w.stored k) = some b' ∧
        (writeFile _ _ w.disk).files (cachePath w k) = some b'
      by_cases hne : k = key
      · subst hne
        exact ⟨b, by simp, by simp [hfile, overwrite_nil]⟩
      · simp only [hne, if_false] at hi
        obtain ⟨b', hb1, hb2⟩ := hs.present k hk i hi
        exact ⟨b', by simp [hne, hb1], by simp [hpath k hk hne, hb2]⟩

theorem sync_elapse {K : Set String} {w : World} (hs : Sync K w)
    (hinj : Set.InjOn (filepathJoin w.root) K) (d : Nat) (stuck : String → Bool)
    (hst : ∀ k ∈ dueKeys (w.now + d) w, stuck (cachePath w k) = false) :
    Sync K (elapse d stuck w) := by
  have hdue : ∀ k ∈ dueKeys (w.now + d) w, k ∈ K := by
    intro k hk
    rw [mem_dueKeys] at hk
    obtain ⟨tm, hmem, -, hkey⟩ := hk
    rw [← hkey]
    exact hs.keys tm hmem
  have hfiles : ∀ k ∈ K, k ∉ dueKeys (w.now + d) w →
      (elapse d stuck w).disk.files (cachePath w k) = w.disk.files (cachePath w k) := by
    intro k hk hnot
    rw [elapse_files, if_neg]
    rintro ⟨hmem, -⟩
    rw [List.mem_map] at hmem
    obtain ⟨k2, hk2, heq⟩ := hmem
    have := hinj (hdue k2 hk2) hk heq
    subst this
    exact hnot hk2
  refine ⟨?_, ?_, ?_⟩
  · intro tm htm
    rw [elapse_heap, List.mem_map] at htm
    obtain ⟨t0, h0, heq⟩ := htm
    have hk : tm.key = t0.key := by
      rw [← heq]
      split_ifs <;> rfl
    rw [hk]
    exact hs.keys t0 h0
  · intro k hk hnone
    rw [cachePath_elapse]
    by_cases hmem : k ∈ dueKeys (w.now + d) w
    · rw [elapse_files, if_pos ⟨List.mem_map_of_mem _ hmem, hst k hmem⟩]
    · rw [elapse_timers, if_neg hmem] at hnone
      rw [hfiles k hk hmem]
      exact hs.absent k hk hnone
  · intro k hk i hi
    rw [cachePath_elapse, elapse_stored]
    rw [elapse_timers] at hi
    split_ifs at hi with hmem
    rw [hfiles k hk hmem]
    exact hs.present k hk i hi

theorem sync_run {K : Set String} (keep : Nat) (acts : List Act) {w : World} (hs : Sync K w)
    (hinj : Set.InjOn (filepathJoin w.root) K) (hacts : Along keep (Tidy K) w acts) :
    Sync K (run keep acts w) := by
  induction acts generalizing w with
  | nil => exact hs
  | cons a acts ih =>
    obtain ⟨ha, hrest⟩ := hacts
    rw [run_cons]
    cases a with
    | ensure env key =>
      exact ih (sync_ensure hs hinj keep env ha.1 ha.2) (by simpa [step] using hinj) hrest
    | wait d stuck =>
      exact ih (sync_elapse hs hinj d stuck ha) (by simpa [step] using hinj) hrest
    | clean kept g => exact absurd ha (by simp [Tidy])

/-! ## The empty key -/

theorem splitSlash_ne_nil (l : List Char) : splitSlash l ≠ [] := by
  cases l with
  | nil => simp [splitSlash]
  | cons c cs =>
    simp only [splitSlash]
    split
    · simp
    · split_ifs <;> simp

theorem splitSlash_append_slash (l : List Char) :
    splitSlash (l ++ ['/']) = splitSlash l ++ [[]] := by
  induction l with
  | nil => simp [splitSlash]
  | cons c cs ih =>
    cases h : splitSlash cs with
    | nil => exact absurd h (splitSlash_ne_nil cs)
    | cons s ss =>
      simp only [List.cons_append, splitSlash, List.append_eq]
      rw [ih, h]
      simp only [List.cons_append]
      split_ifs <;> rfl

theorem cleanSegs_append_empty (rooted : Bool) (acc segs : List (List Char)) :
    cleanSegs rooted acc (segs ++ [[]]) = cleanSegs rooted acc segs := by
  induction segs generalizing acc with
  | nil => simp [cleanSegs]
  | cons s rest ih =>
    simp only [List.cons_append, cleanSegs, List.append_eq]
    cases acc <;> simp only <;> split_ifs <;> exact ih _

theorem filepathClean_append_slash {l : List Char} (h : l ≠ []) :
    filepathClean (l ++ ['/']) = filepathClean l := by
  cases l with
  | nil => exact absurd rfl h
  | cons c cs =>
    simp only [filepathClean]
    rw [splitSlash_append_slash, cleanSegs_append_empty]
    simp

/-- The path of the empty key is the empty path or the cache root. -/
theorem cachePath_empty_key (w : World) :
    cachePath w "" = "" ∨ (cachePath w "").data = filepathClean w.root.data := by
  by_cases hp : cachePath w "" = ""
  · exact Or.inl hp
  · have hroot : w.root ≠ "" := by
      intro hr
      apply hp
      simp [cachePath, filepathJoin, hr]
    have hdata : w.root.data ≠ [] := by
      intro hd
      apply hroot
      cases hw : w.root
      simp_all
    refine Or.inr ?_
    simp only [cachePath, filepathJoin, hroot, ne_eq, not_false_eq_true, if_true]
    exact filepathClean_append_slash hdata

/-- While the cache root directory is there, the path of the empty key cannot
be opened as a file. -/
theorem openFile_empty_key (env : Env) (w : World) (hd : w.disk.rootDir = true) :
    ∃ e, openFile env w.root (cachePath w "") w.disk = .error e := by
  unfold openFile
  cases env.openErr with
  | some e => exact ⟨e, rfl⟩
  | none =>
    rcases cachePath_empty_key w with hp | hp
    · simp [hp]
    · by_cases hp0 : cachePath w "" = ""
      · simp [hp0]
      · simp [hp0, hp, hd]

/-- While the cache root directory is there, a path that can be opened as a
file is not the path of the cache root. -/
theorem openFile_ok_ne_root {env : Env} {root p : String} {d d2 : Disk}
    (h : openFile env root p d = .ok d2) (hd : d.rootDir = true) :
    p.data ≠ filepathClean root.data := by
  intro hp
  unfold openFile at h
  split at h
  · cases h
  · simp only [hp, hd, and_self, if_true] at h
    split_ifs at h

theorem rooted_init (tmp : String) (files : String → Option Bytes) (t0 : Nat) :
    Rooted (cacheInit tmp files t0) := by
  constructor <;> simp [cacheInit]

theorem rooted_ensure {w : World} (hr : Rooted w) (keep : Nat) (env : Env) (key : String) :
    Rooted (cacheEnsure keep env key w).2 := by
  cases cacheEnsure_went keep env key w with
  | hit i h eq =>
    rw [eq]
    refine ⟨hr.dir, ?_, hr.blank⟩
    intro tm htm
    obtain ⟨t0, h0, hk⟩ := mem_resetAt htm
    have := hr.paths t0 h0
    rw [hk] at this
    exact this
  | fault h hb eq => rw [eq]; exact ⟨hr.dir, hr.paths, hr.blank⟩
  | openFailed h b hb e ho eq => rw [eq]; exact ⟨hr.dir, hr.paths, hr.blank⟩
  | copyFailed h b hb d2 ho n e hc eq => rw [eq]; exact ⟨hr.dir, hr.paths, hr.blank⟩
  | done h b hb d2 ho hc eq =>
    rw [eq]
    have hne := openFile_ok_ne_root ho hr.dir
    refine ⟨hr.dir, ?_, ?_⟩
    · intro tm htm
      simp only [List.mem_append, List.mem_singleton] at htm
      rcases htm with htm | htm
      · exact hr.paths tm htm
      · rw [htm]; exact hne
    · have hkey : ("" : String) ≠ key := by
        intro heq
        subst heq
        obtain ⟨e, he⟩ := openFile_empty_key env w hr.dir
        rw [he] at ho
        cases ho
      simp [hkey, hr.blank]

theorem rooted_elapse {w : World} (hr : Rooted w) (d : Nat) (stuck : String → Bool) :
    Rooted (elapse d stuck w) := by
  refine ⟨?_, ?_, ?_⟩
  · rw [elapse_rootDir w stuck d hr.paths]
    exact hr.dir
  · intro tm htm
    rw [elapse_heap, List.mem_map] at htm
    obtain ⟨t0, h0, heq⟩ := htm
    have hk : tm.key = t0.key := by
      rw [← heq]
      split_ifs <;> rfl
    rw [cachePath_elapse, elapse_root, hk]
    exact hr.paths t0 h0
  · rw [elapse_timers, hr.blank]
    split_ifs <;> rfl

theorem rooted_run (keep : Nat) (acts : List Act) {w : World} (hr : Rooted w)
    (hacts : ∀ a ∈ acts, a.Kept) : Rooted (run keep acts w) := by
  induction acts generalizing w with
  | nil => exact hr
  | cons a acts ih =>
    have ha := hacts a (List.mem_cons_self _ _)
    have hrest : ∀ a' ∈ acts, a'.Kept := fun a' h' => hacts a' (List.mem_cons_of_mem _ h')
    rw [run_cons]
    cases a with
    | ensure env key => exact ih (rooted_ensure hr keep env key) hrest
    | wait d stuck => exact ih (rooted_elapse hr d stuck) hrest
    | clean kept g => exact absurd ha (by simp [Act.Kept])

theorem reachable_wf {keep : Nat} {w : World} (hw : Reachable keep w) : WF w := by
  obtain ⟨tmp, files, t0, acts, rfl⟩ := hw
  exact (WF.init tmp files t0).run keep acts

/-- The `err` of `GetObject` has no part in what `cacheEnsure` does. -/
theorem cacheEnsure_getErr (keep : Nat) (env : Env) (key : String) (w : World)
    (e : Option Err) :
    cacheEnsure keep { env with getErr := e } key w = cacheEnsure keep env key w := rfl

/-- A download that goes through over a file that is already there keeps the
old bytes past the length of the new body. -/
theorem download_over_old_file (keep : Nat) (env : Env) (key : String) (w : World)
    (b old : Bytes) (d2 : Disk) (h : w.timers key = none) (hb : env.getBody = some b)
    (ho : openFile env w.root (cachePath w key) w.disk = .ok d2) (hc : env.copyErr = none)
    (hold : w.disk.files (cachePath w key) = some old) :
    (cacheEnsure keep env key w).1 = .ret (cachePath w key, none) ∧
      (cacheEnsure keep env key w).2.disk.files (cachePath w key)
        = some (b ++ old.drop b.length) := by
  rw [cacheEnsure_miss_ok keep env key w h hb ho hc]
  simp [hold, overwrite]

/-- Whenever `GetObject` comes back with a `nil` body for a key without entry,
`cacheEnsure` faults. -/
theorem fault_of_nil_body (keep : Nat) (env : Env) (key : String) (w : World)
    (h : w.timers key = none) (hb : env.getBody = none) :
    (cacheEnsure keep env key w).1 = .fault := by
  rw [cacheEnsure_miss_fault keep env key w h hb]

theorem cacheEnsureBetween_id (keep : Nat) (env : Env) (key : String) (w : World) :
    cacheEnsureBetween id keep env key w = cacheEnsure keep env key w := rfl

/-- Whenever the timer of a cached key fires between the two locked blocks of
a call for the key, the call faults in the reset. -/
theorem fault_of_expiry_between (keep : Nat) (env : Env) (key : String) (w : World)
    (D d : Nat) (stuck : String → Bool) (h : Live key D w) (hd : D ≤ w.now + d) :
    (cacheEnsureBetween (elapse d stuck) keep env key w).1 = .fault := by
  have h1 := (live_expired h stuck hd).1
  obtain ⟨i, hi, -⟩ := h
  simp [cacheEnsureBetween, ensureLookup, hi, ensureFinish, ensureReset, h1]

/-- Once `cacheClean` has removed the cache root, its path can be opened as a
file: a store that served the empty key would then give it a file, an entry
and a timer. -/
theorem empty_key_after_clean :
    (cacheEnsure keepHour (Env.good [1]) "" (run keepHour [.clean noStuck true] fresh)).1
      = .ret ("/tmp", none) ∧
    (cacheEnsure keepHour (Env.good [1]) ""
      (run keepHour [.clean noStuck true] fresh)).2.timers "" = some 0 ∧
    (cacheEnsure keepHour (Env.good [1]) ""
      (run keepHour [.clean noStuck true] fresh)).2.disk.files "/tmp" = some [1] := by
  decide

/-! ## The claims -/

/-- C1, the code at the failing input: the cache directory holds a three-byte
file at the path of key `a` and the remote object is the single byte 9; the
call downloads and returns no error, and the file then holds 9 followed by the
last two old bytes, not the remote object alone. -/
theorem download_keeps_old_tail :
    freshOverOld.disk.files "/tmp/a" = some [1, 2, 3] ∧
    freshOverOld.timers "a" = none ∧
    (cacheEnsure keepHour (Env.good [9]) "a" freshOverOld).1 = .ret ("/tmp/a", none) ∧
    (cacheEnsure keepHour (Env.good [9]) "a" freshOverOld).2.fetched = ["a"] ∧
    (cacheEnsure keepHour (Env.good [9]) "a" freshOverOld).2.disk.files "/tmp/a"
      = some [9, 2, 3] := by
  decide

/-- C2, counterexample: the key was never seen and the remote store does not
fail, but the first call cannot open the local file; the call one second
later fetches again, two fetches in all. -/
theorem refetch_after_open_failure :
    (run keepHour [.ensure (Env.denied [7]) "a", .wait 1 noStuck, .ensure (Env.good [7]) "a"]
      fresh).fetched = ["a", "a"] ∧
    (run keepHour [.ensure (Env.denied [7]) "a", .wait 1 noStuck, .ensure (Env.good [7]) "a"]
      fresh).fetched.count "a" = 2 := by
  decide

/-- C2, amended: for a key never fetched before whose first `cacheEnsure` call
returns no error, let any number of later calls for the key follow, each less
than `keep` after the one before, with calls for other keys, timer expiries
and `cacheClean` in between. The first call fetches, and it stays the only
fetch of the key. -/
theorem single_fetch_within_keep (keep : Nat) (w : World) (key : String) (env : Env)
    (p : String) (calls : List (List Act × Env))
    (hw : Reachable keep w) (hnew : key ∉ w.fetched)
    (hfirst : (cacheEnsure keep env key w).1 = .ret (p, none))
    (hgaps : ∀ c ∈ calls, (∀ a ∈ c.1, a.Other key) ∧ span c.1 < keep) :
    (cacheEnsure keep env key w).2.fetched = w.fetched ++ [key] ∧
      (run keep (later key calls) (cacheEnsure keep env key w).2).fetched.count key = 1 := by
  have hwf := reachable_wf hw
  have hnone : w.timers key = none := by
    cases h : w.timers key with
    | none => rfl
    | some i => exact absurd (hwf.logged key i h) hnew
  have h1 := cacheEnsure_fetched_miss keep env key w hnone
  have hl := (live_of_ensure hwf keep env key hfirst).2
  have h2 := later_count calls hgaps (hwf.ensure keep env key) (by simpa using hl)
  refine ⟨h1, ?_⟩
  rw [h2, h1, List.count_append, List.count_eq_zero_of_not_mem hnew]
  simp

/-- C2, the amended claim at work with `keep` 3: calls for `a` at instants 0, 1
and 3, with a call for `b` in between. -/
theorem single_fetch_within_keep_witness :
    "a" ∉ fresh.fetched ∧
    (cacheEnsure 3 (Env.good [7]) "a" fresh).1 = .ret ("/tmp/a", none) ∧
    (run 3 (later "a" [([.wait 1 noStuck], Env.good [7]),
        ([.ensure (Env.good [5]) "b", .wait 2 noStuck], Env.good [8])])
      (cacheEnsure 3 (Env.good [7]) "a" fresh).2).fetched.count "a" = 1 :=
  ⟨by decide, by decide,
    (single_fetch_within_keep 3 fresh "a" (Env.good [7]) "/tmp/a"
      [([.wait 1 noStuck], Env.good [7]),
        ([.ensure (Env.good [5]) "b", .wait 2 noStuck], Env.good [8])]
      ⟨"/tmp", fun _ => none, 0, [], rfl⟩ (by decide) (by decide)
      (by simp [Act.Other, span])).2⟩

/-- C3, counterexample, with `keep` 2: `/tmp` holds at start-up a file `a`
that the process may write but not remove. The call for `a` at instant 0
returns no error; at instant 2 the timer fires and the entry is gone, but
`os.Remove` fails, its error is dropped, and the file is still there. -/
theorem stuck_file_outlives_entry :
    (cacheEnsure 2 (Env.good [9]) "a" freshOverOld).1 = .ret ("/tmp/a", none) ∧
    (run 2 [.ensure (Env.good [9]) "a", .wait 2 (onlyStuck "/tmp/a")]
      freshOverOld).timers "a" = none ∧
    (run 2 [.ensure (Env.good [9]) "a", .wait 2 (onlyStuck "/tmp/a")]
      freshOverOld).disk.files "/tmp/a" = some [9, 2, 3] := by
  decide

/-- C3, amended: let a `cacheEnsure(key)` return no error at instant `t`, and
let no call for the key follow, whatever else happens (calls for other keys,
other timers, `cacheClean`). The timer of the key is armed for `t + keep`,
whether the call downloaded or not, and stays so while less than `keep` has
gone by. When the clock reaches `t + keep` the timer fires: the key is out of
the map, and its file is gone if the `os.Remove` of the callback goes through.
From then on the key stays out of the map and the next `cacheEnsure(key)`
fetches again; the file stays away if no remove of it has failed and no call
for another key with the same path is made. With `keep` 2 and removes that go
through: the call at 0 fetches, the call at 1 does not, the file is there at 2
and gone at 3, and the call at 4 fetches again. -/
theorem idle_entry_expires (keep : Nat) (w : World) (key : String) (env : Env) (p : String)
    (hkeep : 0 < keep) (hw : Reachable keep w)
    (hok : (cacheEnsure keep env key w).1 = .ret (p, none)) :
    (p = cachePath w key ∧ Live key (w.now + keep) (cacheEnsure keep env key w).2) ∧
    (∀ acts, (∀ a ∈ acts, a.Other key) → span acts < keep →
      Live key (w.now + keep) (run keep acts (cacheEnsure keep env key w).2) ∧
      ∀ d stuck, keep ≤ span acts + d →
        (elapse d stuck (run keep acts (cacheEnsure keep env key w).2)).timers key = none ∧
        (stuck p = false →
          (elapse d stuck (run keep acts (cacheEnsure keep env key w).2)).disk.files p
            = none)) ∧
    (∀ acts, (∀ a ∈ acts, a.Other key) → keep ≤ span acts →
      (run keep acts (cacheEnsure keep env key w).2).timers key = none ∧
      (Along keep (Off p) (cacheEnsure keep env key w).2 acts →
        (run keep acts (cacheEnsure keep env key w).2).disk.files p = none) ∧
      ∀ env2,
        (cacheEnsure keep env2 key (run keep acts (cacheEnsure keep env key w).2)).2.fetched =
          (run keep acts (cacheEnsure keep env key w).2).fetched ++ [key]) ∧
    ((run 2 [.ensure (Env.good [7]) "a"] fresh).fetched = ["a"] ∧
      (run 2 [.ensure (Env.good [7]) "a", .wait 1 noStuck, .ensure (Env.good [7]) "a"]
        fresh).fetched = ["a"] ∧
      (run 2 [.ensure (Env.good [7]) "a", .wait 1 noStuck, .ensure (Env.good [7]) "a",
        .wait 1 noStuck] fresh).disk.files "/tmp/a" = some [7] ∧
      (run 2 [.ensure (Env.good [7]) "a", .wait 1 noStuck, .ensure (Env.good [7]) "a",
        .wait 2 noStuck] fresh).disk.files "/tmp/a" = none ∧
      (run 2 [.ensure (Env.good [7]) "a", .wait 1 noStuck, .ensure (Env.good [7]) "a",
        .wait 2 noStuck] fresh).timers "a" = none ∧
      (run 2 [.ensure (Env.good [7]) "a", .wait 1 noStuck, .ensure (Env.good [7]) "a",
        .wait 2 noStuck, .wait 1 noStuck] fresh).now = 4 ∧
      (run 2 [.ensure (Env.good [7]) "a", .wait 1 noStuck, .ensure (Env.good [7]) "a",
        .wait 2 noStuck, .wait 1 noStuck, .ensure (Env.good [7]) "a"] fresh).fetched
        = ["a", "a"]) := by
  have hwf := reachable_wf hw
  obtain ⟨hp, hl⟩ := live_of_ensure hwf keep env key hok
  have hwf1 := hwf.ensure keep env key
  refine ⟨⟨hp, hl⟩, ?_, ?_, ?_⟩
  · intro acts hacts hd
    have hl2 : Live key (w.now + keep) (run keep acts (cacheEnsure keep env key w).2) :=
      live_run acts hwf1 hl hacts (by simp; omega)
    refine ⟨hl2, fun d stuck hdd => ?_⟩
    have hdue : w.now + keep ≤ (run keep acts (cacheEnsure keep env key w).2).now + d := by
      simp [run_now]; omega
    obtain ⟨h1, h2⟩ := live_expired hl2 stuck hdue
    exact ⟨h1, by simpa [hp, cachePath] using h2⟩
  · intro acts hacts hd
    obtain ⟨h1, h2⟩ := expired_run keep acts hwf1 hl (by simp; omega) hacts
      (by simp; omega)
    refine ⟨h1, fun hoff => ?_, fun env2 => ?_⟩
    · have hp2 : cachePath (cacheEnsure keep env key w).2 key = p := by
        rw [cachePath_cacheEnsure, hp]
      rw [hp2] at h2
      exact h2 hoff
    · rw [cacheEnsure_fetched_miss keep env2 key _ h1]
  · decide

/-- C3, the amended claim at work with `keep` 2: the second call for `a`, at
instant 1, finds the entry made at instant 0. One second later the key still
has its timer; two seconds later, at instant 3, the key is out of the map and,
the remove going through, the file is gone. -/
theorem idle_entry_expires_witness :
    (cacheEnsure 2 (Env.good [7]) "a" cachedAtOne).1 = .ret ("/tmp/a", none) ∧
    Live "a" 3 (run 2 [.wait 1 noStuck] (cacheEnsure 2 (Env.good [7]) "a" cachedAtOne).2) ∧
    (elapse 1 noStuck
      (run 2 [.wait 1 noStuck] (cacheEnsure 2 (Env.good [7]) "a" cachedAtOne).2)).disk.files
      "/tmp/a" = none ∧
    (run 2 [.wait 2 noStuck] (cacheEnsure 2 (Env.good [7]) "a" cachedAtOne).2).timers "a"
      = none ∧
    (run 2 [.wait 2 noStuck] (cacheEnsure 2 (Env.good [7]) "a" cachedAtOne).2).disk.files
      "/tmp/a" = none :=
  have h := idle_entry_expires 2 cachedAtOne "a" (Env.good [7]) "/tmp/a" (by decide)
    ⟨"/tmp", fun _ => none, 0, _, rfl⟩ (by decide)
  ⟨by decide, (h.2.1 [.wait 1 noStuck] (by simp [Act.Other]) (by decide)).1,
    ((h.2.1 [.wait 1 noStuck] (by simp [Act.Other]) (by decide)).2 1 noStuck (by decide)).2 rfl,
    (h.2.2.1 [.wait 2 noStuck] (by simp [Act.Other]) (by decide)).1,
    (h.2.2.1 [.wait 2 noStuck] (by simp [Act.Other]) (by decide)).2.1
      (by simp [Along, Off, noStuck])⟩

/-- C4, the code at the failing input: `GetObject` fails for key `a` (a `nil`
body and the error `NoSuchKey`); `cacheEnsure` does not return that error, it
stops with a fault at `defer src.Body.Close()`. -/
theorem getObject_error_dropped :
    (cacheEnsure keepHour (Env.failed "NoSuchKey") "a" fresh).1 = .fault ∧
    (cacheEnsure keepHour (Env.failed "NoSuchKey") "a" fresh).1 ≠ .ret ("", some "NoSuchKey") ∧
    (cacheEnsure keepHour (Env.failed "NoSuchKey") "a" fresh).2.fetched = ["a"] := by
  decide

theorem injOn_pair : Set.InjOn (filepathJoin "/tmp") {"a", "b"} := by
  intro x hx y hy hxy
  simp only [Set.mem_insert_iff, Set.mem_singleton_iff] at hx hy
  rcases hx with rfl | rfl <;> rcases hy with rfl | rfl <;> first | rfl | (revert hxy; decide)

theorem beside_pair : ∀ k ∈ ({"a", "b"} : Set String),
    freshBesideOld.disk.files (filepathJoin "/tmp" k) = none ∧
      (filepathJoin "/tmp" k).data ≠ filepathClean "/tmp".data := by
  intro k hk
  simp only [Set.mem_insert_iff, Set.mem_singleton_iff] at hk
  rcases hk with rfl | rfl <;> decide

/-- C8: when a key has no entry, `GetObject` succeeds, and `os.OpenFile` or
`io.Copy` fails with an error, `cacheEnsure(key)` returns the empty path with
that error, and the map and the timers are as before. -/
theorem local_failure_returned (keep : Nat) (w : World) (env : Env) (key : String)
    (b : Bytes) (e : Err)
    (hnone : w.timers key = none) (hget : env.getBody = some b ∧ env.getErr = none)
    (hfail : openFile env w.root (cachePath w key) w.disk = .error e ∨
      ∃ d2, openFile env w.root (cachePath w key) w.disk = .ok d2 ∧
        (ioCopy env (cachePath w key) b d2).1 = some e) :
    (cacheEnsure keep env key w).1 = .ret ("", some e) ∧
    (cacheEnsure keep env key w).2.timers = w.timers ∧
    (cacheEnsure keep env key w).2.heap = w.heap := by
  rcases hfail with ho | ⟨d2, ho, hc⟩
  · rw [cacheEnsure_miss_open keep env key w hnone hget.1 ho]
    exact ⟨rfl, rfl, rfl⟩
  · cases hce : env.copyErr with
    | none => rw [ioCopy_none _ _ _ hce] at hc; cases hc
    | some ne =>
      obtain ⟨n, e'⟩ := ne
      rw [ioCopy_some _ _ _ hce] at hc
      simp only [Option.some.injEq] at hc
      subst hc
      rw [cacheEnsure_miss_copy keep env key w hnone hget.1 ho hce]
      exact ⟨rfl, rfl, rfl⟩

/-- C8 at work: the disk is full after two bytes of the object of `a`. -/
theorem local_failure_returned_witness :
    fresh.timers "a" = none ∧
    (ioCopy (Env.diskFull [1, 2, 3] 2) "/tmp/a" [1, 2, 3] (writeFile "/tmp/a" [] fresh.disk)).1
      = some "no space left on device" ∧
    (cacheEnsure keepHour (Env.diskFull [1, 2, 3] 2) "a" fresh).1
      = .ret ("", some "no space left on device") ∧
    (cacheEnsure keepHour (Env.diskFull [1, 2, 3] 2) "a" fresh).2.timers = fresh.timers ∧
    (cacheEnsure keepHour (Env.diskFull [1, 2, 3] 2) "a" fresh).2.heap = fresh.heap :=
  ⟨rfl, by decide,
    local_failure_returned keepHour fresh (Env.diskFull [1, 2, 3] 2) "a" [1, 2, 3]
      "no space left on device" rfl ⟨rfl, rfl⟩
      (Or.inr ⟨writeFile "/tmp/a" [] fresh.disk, by rfl, by decide⟩)⟩

/-- C9, the code at the failing input, with `keep` 2: `a` is cached at instant
0. A call at instant 1 finds the timer in its first locked block and skips the
download; the clock reaches 2, the timer fires and its callback deletes the
entry; the second locked block then finds no timer for `a` and the reset
faults on `nil`. Without the expiry in between the same call returns the
path. -/
theorem reset_after_expiry_faults :
    ensureLookup "a" cachedAtOne = some 0 ∧
    (elapse 1 noStuck cachedAtOne).timers "a" = none ∧
    (ensureReset 2 "a" (elapse 1 noStuck cachedAtOne)).isNone = true ∧
    (cacheEnsureBetween (elapse 1 noStuck) 2 (Env.good [7]) "a" cachedAtOne).1 = .fault ∧
    (cacheEnsureBetween id 2 (Env.good [7]) "a" cachedAtOne).1 = .ret ("/tmp/a", none) := by
  decide

end AwsCache

namespace FacebookApi

/-- Whenever the request carries no `facebook-auth` cookie, the token selection
faults, whatever its headers. -/
theorem fault_of_no_cookie (r : Request) (h : r.cookies "facebook-auth" = none) :
    profileHandler r = .fault := by
  simp [profileHandler, Request.cookie, h]

/-- C10, the code at the failing input: a request without the `facebook-auth`
cookie faults in the token selection, with the header
`Authentication: Bearer abc` and without it. The header is read only when the
cookie is there with an empty value. -/
theorem profileHandler_no_cookie_faults :
    profileHandler (withBearer noCookies) = .fault ∧
    profileHandler (withoutHeader noCookies) = .fault ∧
    profileHandler (withBearer loggedOut) = .profileCall "abc" ∧
    profileHandler (withoutHeader loggedOut) = .error "Forbidden" 403 := by
  decide

end FacebookApi
